import Mathlib

/-!
Verification of the polygon-blackjack asset-preparation scripts
(`scripts/verify_cards.py`, `scripts/slice_cards.py`, `scripts/analyze_cards.py`)
against their natural-language specification.

The Python code is shallowly embedded: pure functions become Lean functions,
Python integers become `Int` (with floor division `Int.fdiv` and the matching
modulo `Int.fmod`, which is what Python's `//` and `%` compute), Python list
indexing (which admits negative indices counting from the end and raises
`IndexError` out of range) becomes an `Option`-returning lookup, and the
slicer's write loop with its `seen_cards` set becomes a recursive function
producing an explicit list of write/skip events.
-/

namespace Blackjack

/-! ## verify_cards.py -/

/-- `CARD_NAMES = ["A", "2", ..., "10", "J", "Q", "K"]` -/
def CARD_NAMES : List String :=
  ["A", "2", "3", "4", "5", "6", "7", "8", "9", "10", "J", "Q", "K"]

/-- `SUITS = ["spades", "hearts", "diamonds", "clubs"]` -/
def SUITS : List String := ["spades", "hearts", "diamonds", "clubs"]

/-- Python list indexing `l[i]`: a negative index counts from the end
(`l[i]` is `l[len(l)+i]` for `-len(l) ≤ i < 0`); an index out of range
raises `IndexError`, modelled as `none`. -/
def pyGet (l : List String) (i : Int) : Option String :=
  if 0 ≤ i then l.get? i.toNat
  else if i.natAbs ≤ l.length then l.get? (l.length - i.natAbs)
  else none

/-- `card_id_to_filename` from `scripts/verify_cards.py`:
`rank_index = (card_id - 1) % 13`, `suit_index = (card_id - 1) // 13`
(Python `%`/`//` are floor-based, i.e. `Int.fmod`/`Int.fdiv`), then
`f"{rank}_{suit}.png"` after Python list indexing into the two tables. -/
def card_id_to_filename (card_id : Int) : Option String :=
  let rank_index : Int := (card_id - 1).fmod 13
  let suit_index : Int := (card_id - 1).fdiv 13
  match pyGet CARD_NAMES rank_index, pyGet SUITS suit_index with
  | some rank, some suit => some (rank ++ "_" ++ suit ++ ".png")
  | _, _ => none

/-- The 52 strings `"<rank>_<suit>.png"`, suit-major in the order of `SUITS`
and rank-major in the order of `CARD_NAMES` — the order in which card ids
1..52 enumerate them. -/
def targetFilenames : List String :=
  SUITS.flatMap (fun s => CARD_NAMES.map (fun r => r ++ "_" ++ s ++ ".png"))

/-! ## slice_cards.py : pixels and background removal -/

/-- An RGBA pixel as produced by `img.getdata()` after `convert("RGBA")`. -/
abbrev Pixel := Nat × Nat × Nat × Nat

/-- The alpha channel of a pixel. -/
def alphaOf (p : Pixel) : Nat := p.2.2.2

/-- The primary tolerance rule `is_green` of `remove_green_background`:
`abs(r - 17) < 40 and abs(g - 94) < 50 and abs(b - 63) < 40 and g > r and g > b`. -/
def is_green (r g b : Nat) : Prop :=
  ((r : Int) - 17).natAbs < 40 ∧ ((g : Int) - 94).natAbs < 50 ∧
    ((b : Int) - 63).natAbs < 40 ∧ g > r ∧ g > b

instance (r g b : Nat) : Decidable (is_green r g b) := by
  unfold is_green; infer_instance

/-- The secondary dark-green rule `is_dark_green` of `remove_green_background`:
`g > r + 10 and g > b + 5 and r < 80 and g < 180 and b < 100`. -/
def is_dark_green (r g b : Nat) : Prop :=
  g > r + 10 ∧ g > b + 5 ∧ r < 80 ∧ g < 180 ∧ b < 100

instance (r g b : Nat) : Decidable (is_dark_green r g b) := by
  unfold is_dark_green; infer_instance

/-- The loop body of `remove_green_background` in `scripts/slice_cards.py`:
a pixel matching either rule becomes `(0, 0, 0, 0)`, any other pixel is
appended unchanged. -/
def remove_green_pixel (p : Pixel) : Pixel :=
  let (r, g, b, _a) := p
  if is_green r g b ∨ is_dark_green r g b then (0, 0, 0, 0) else p

/-! ## slice_cards.py : the grid-name table -/

/-- `CARD_MAP` from `scripts/slice_cards.py`: the 6×9 grid-position-to-name
table, rows top to bottom, columns left to right. -/
def CARD_MAP : List (List String) :=
  [["K_diamonds", "K_spades", "K_hearts", "K_clubs", "A_clubs",
    "7_diamonds", "7_spades", "7_hearts", "7_clubs"],
   ["Q_diamonds", "Q_spades", "Q_hearts", "Q_clubs", "A_hearts",
    "6_diamonds", "6_spades", "6_hearts", "6_clubs"],
   ["J_diamonds", "J_spades", "J_hearts", "J_clubs", "A_spades",
    "5_diamonds", "5_spades", "5_hearts", "5_clubs"],
   ["10_diamonds", "10_spades", "10_hearts", "10_clubs", "A_diamonds",
    "4_diamonds", "4_spades", "4_hearts", "4_clubs"],
   ["9_diamonds", "9_spades", "9_hearts", "9_clubs", "joker",
    "3_diamonds", "3_spades", "3_hearts", "3_clubs"],
   ["8_diamonds", "8_spades", "8_hearts", "8_clubs", "back",
    "2_diamonds", "2_spades", "2_hearts", "2_clubs"]]

/-- `ROWS = 6` in `scripts/slice_cards.py`. -/
def ROWS : Nat := 6

/-- `COLS = 9` in `scripts/slice_cards.py`. -/
def COLS : Nat := 9

/-! ## slice_cards.py : images, cropping, and the write loop -/

/-- A raster image: dimensions plus a pixel map (as PIL exposes it). -/
structure Img where
  width : Nat
  height : Nat
  px : Nat → Nat → Pixel

/-- `remove_green_background` over a whole image: every pixel goes through
the per-pixel classification loop body. -/
def remove_green_background (img : Img) : Img :=
  { img with px := fun x y => remove_green_pixel (img.px x y) }

/-- `img.crop((left, upper, right, lower))`: the sub-image of width
`right - left` and height `lower - upper` whose pixel (x, y) is the source's
pixel (left + x, upper + y). -/
def crop (img : Img) (left upper right lower : Nat) : Img :=
  { width := right - left,
    height := lower - upper,
    px := fun x y => img.px (left + x) (upper + y) }

/-- The in-bounds coordinates with non-zero alpha, row by row — the content
that `img.getbbox()` measures (for an RGBA image, PIL's `getbbox` trims the
transparent pixels). -/
def nonTransparentCoords (img : Img) : List (Nat × Nat) :=
  (List.range img.height).flatMap fun y =>
    (List.range img.width).filterMap fun x =>
      if alphaOf (img.px x y) ≠ 0 then some (x, y) else none

/-- Fold of `min` over a list with a starting value. -/
def minOf (a : Nat) (l : List Nat) : Nat := l.foldl min a

/-- Fold of `max` over a list with a starting value. -/
def maxOf (a : Nat) (l : List Nat) : Nat := l.foldl max a

/-- `img.getbbox()`: `None` when the image has no non-transparent pixel,
otherwise `(left, upper, right, lower)` — the smallest rectangle containing
every non-transparent pixel, right/lower bounds exclusive. -/
def getbbox (img : Img) : Option (Nat × Nat × Nat × Nat) :=
  match nonTransparentCoords img with
  | [] => none
  | c :: cs =>
    some (minOf c.1 (cs.map Prod.fst), minOf c.2 (cs.map Prod.snd),
          maxOf c.1 (cs.map Prod.fst) + 1, maxOf c.2 (cs.map Prod.snd) + 1)

/-- `crop_transparent_borders` from `scripts/slice_cards.py`: crop to
`getbbox` when it exists, otherwise return the image unchanged. -/
def crop_transparent_borders (img : Img) : Img :=
  match getbbox img with
  | none => img
  | some (left, upper, right, lower) => crop img left upper right lower

/-- Follows the spec's words: `(left, upper, right, lower)` is the bounding
box of the non-transparent content of `img` — every in-bounds non-transparent
pixel lies inside it, and each of its four edges touches such a pixel. -/
def specContentBBox (img : Img) (left upper right lower : Nat) : Prop :=
  (∀ x y, x < img.width → y < img.height → alphaOf (img.px x y) ≠ 0 →
    left ≤ x ∧ x < right ∧ upper ≤ y ∧ y < lower) ∧
  (∃ x y, x < img.width ∧ y < img.height ∧ alphaOf (img.px x y) ≠ 0 ∧ x = left) ∧
  (∃ x y, x < img.width ∧ y < img.height ∧ alphaOf (img.px x y) ≠ 0 ∧ x + 1 = right) ∧
  (∃ x y, x < img.width ∧ y < img.height ∧ alphaOf (img.px x y) ≠ 0 ∧ y = upper) ∧
  (∃ x y, x < img.width ∧ y < img.height ∧ alphaOf (img.px x y) ≠ 0 ∧ y + 1 = lower)

/-- `FIRST_CARD_X = 72` in `slice_cards`. -/
def FIRST_CARD_X : Nat := 72
/-- `FIRST_CARD_Y = 544` in `slice_cards`. -/
def FIRST_CARD_Y : Nat := 544
/-- `CARD_WIDTH = 428` in `slice_cards`. -/
def CARD_WIDTH : Nat := 428
/-- `CARD_HEIGHT = 576` in `slice_cards`. -/
def CARD_HEIGHT : Nat := 576
/-- `H_GAP = 62` in `slice_cards`. -/
def H_GAP : Nat := 62
/-- `V_GAP = 84` in `slice_cards`. -/
def V_GAP : Nat := 84

/-- The per-cell image pipeline of `slice_cards`: crop the cell's fixed
rectangle, remove the green background, trim transparent borders. -/
def processCell (sheet : Img) (row col : Nat) : Img :=
  let left := FIRST_CARD_X + col * (CARD_WIDTH + H_GAP)
  let upper := FIRST_CARD_Y + row * (CARD_HEIGHT + V_GAP)
  crop_transparent_borders (remove_green_background
    (crop sheet left upper (left + CARD_WIDTH) (upper + CARD_HEIGHT)))

/-- One console event of the write loop: a saved card or a skipped
duplicate. -/
inductive SliceEvent (α : Type) where
  | written (name : String) (content : α)
  | skipped (name : String)

/-- The write loop of `slice_cards` over the row-major cell list, carrying
the `seen_cards` set: a cell whose name was already seen produces a skip
event and no write; otherwise its name is added to `seen_cards` and the cell
is written. -/
def sliceEvents {α : Type} (seen : List String) : List (String × α) → List (SliceEvent α)
  | [] => []
  | (n, c) :: rest =>
    if n ∈ seen then SliceEvent.skipped n :: sliceEvents seen rest
    else SliceEvent.written n c :: sliceEvents (n :: seen) rest

/-- The payload of a write event. -/
def writtenPair {α : Type} : SliceEvent α → Option (String × α)
  | SliceEvent.written n c => some (n, c)
  | SliceEvent.skipped _ => none

/-- The files written by the loop started with `seen_cards = seen`, in write
order, as (card name, saved image) pairs. -/
def sliceWritesFrom {α : Type} (seen : List String) (cells : List (String × α)) :
    List (String × α) :=
  (sliceEvents seen cells).filterMap writtenPair

/-- The files written by a full run (the loop starts with an empty
`seen_cards` set). -/
def sliceWrites {α : Type} (cells : List (String × α)) : List (String × α) :=
  sliceWritesFrom [] cells

/-- The row-major cell list of `slice_cards`: for `row in range(ROWS)`,
`col in range(COLS)`, the name `CARD_MAP[row][col]` paired with the processed
cell image. -/
def slicerCells (sheet : Img) : List (String × Img) :=
  (List.range ROWS).flatMap fun row =>
    (List.range COLS).map fun col =>
      ((CARD_MAP.getD row []).getD col "", processCell sheet row col)

/-- One complete run of `slice_cards` on a sprite sheet: the files it
writes, in order. -/
def slice_cards (sheet : Img) : List (String × Img) :=
  sliceWrites (slicerCells sheet)

/-- The names of the grid cells in row-major order (what the run writes does
not depend on pixel data, only on these names). -/
def gridNames : List String :=
  (List.range ROWS).flatMap fun row =>
    (List.range COLS).map fun col => (CARD_MAP.getD row []).getD col ""

/-- The write loop restricted to names: the card names saved, in order. -/
def nameWrites (seen : List String) : List String → List String
  | [] => []
  | n :: rest =>
    if n ∈ seen then nameWrites seen rest else n :: nameWrites (n :: seen) rest

/-- A 2×2 image whose pixels all have zero alpha but non-zero color
channels: fully transparent content. -/
def imgBlank : Img := ⟨2, 2, fun _ _ => (9, 9, 9, 0)⟩

/-- A 3×2 image whose only non-transparent pixel is at (1, 0). -/
def imgDot : Img :=
  ⟨3, 2, fun x y => if x = 1 ∧ y = 0 then (255, 255, 255, 255) else (0, 0, 0, 0)⟩

/-! ## analyze_cards.py -/

/-- The per-sample classification in `analyze_sprite_sheet` of
`scripts/analyze_cards.py`:
`"GREEN" if (g > r + 10 and g > b + 5) else "WHITE" if (r > 200 and g > 200
and b > 200) else "OTHER"` — the GREEN test is applied first. -/
def color_type (r g b : Nat) : String :=
  if g > r + 10 ∧ g > b + 5 then "GREEN"
  else if r > 200 ∧ g > 200 ∧ b > 200 then "WHITE"
  else "OTHER"

/-- The exhaustive check in `main` of `scripts/verify_cards.py`:
`for card_id in range(1, 53)` compute the filename and, when the file is
absent from the cards directory, append `(card_id, filename)` to `missing`.
The directory is modelled by the list of filenames it contains. -/
def verifyMissing (dirFiles : List String) : List (Int × String) :=
  ((List.range 52).map (fun k => (k : Int) + 1)).filterMap (fun id =>
    match card_id_to_filename id with
    | some filename => if filename ∈ dirFiles then none else some (id, filename)
    | none => none)

/-- The summary the verifier prints after the exhaustive check:
`if missing:` print the missing count, else report full success.
The run always reaches this print (missing files are collected, never
raised), which is the non-fatal completion the spec describes. -/
def verifySummary (dirFiles : List String) : String :=
  let missing := verifyMissing dirFiles
  if missing ≠ [] then "❌ Missing " ++ toString missing.length ++ " cards:"
  else "✅ All 52 cards are present!"

/-- A directory holding all 52 expected card files except `2_clubs.png`. -/
def dirMissingTwoClubs : List String := targetFilenames.erase "2_clubs.png"

end Blackjack

namespace Blackjack

theorem sliceWritesFrom_map_fst {α : Type} (seen : List String) (cells : List (String × α)) :
    (sliceWritesFrom seen cells).map Prod.fst = nameWrites seen (cells.map Prod.fst) := by
  induction cells generalizing seen with
  | nil => rfl
  | cons hd tl ih =>
    obtain ⟨n, c⟩ := hd
    by_cases h : n ∈ seen
    · simp only [sliceWritesFrom, sliceEvents, if_pos h, List.filterMap_cons, writtenPair,
        List.map_cons, nameWrites]
      exact ih seen
    · simp only [sliceWritesFrom, sliceEvents, if_neg h, List.filterMap_cons, writtenPair,
        List.map_cons, nameWrites]
      exact congrArg (n :: ·) (ih (n :: seen))

theorem nameWrites_nodup (seen names : List String) :
    (nameWrites seen names).Nodup ∧ ∀ n ∈ nameWrites seen names, n ∉ seen := by
  induction names generalizing seen with
  | nil => exact ⟨List.nodup_nil, by intro n hn; cases hn⟩
  | cons m tl ih =>
    by_cases h : m ∈ seen
    · simpa only [nameWrites, if_pos h] using ih seen
    · simp only [nameWrites, if_neg h]
      obtain ⟨hnd, havoid⟩ := ih (m :: seen)
      refine ⟨List.nodup_cons.mpr ⟨fun hm => ?_, hnd⟩, ?_⟩
      · exact havoid m hm (List.mem_cons_self m seen)
      · intro n hn
        rcases List.mem_cons.mp hn with rfl | hn
        · exact h
        · exact fun hs => havoid n hn (List.mem_cons_of_mem m hs)

theorem sliceWritesFrom_filter {α : Type} (seen : List String) (cells : List (String × α))
    (n : String) :
    (sliceWritesFrom seen cells).filter (fun nc => nc.1 == n) =
      if n ∈ seen then [] else (cells.filter (fun nc => nc.1 == n)).take 1 := by
  induction cells generalizing seen with
  | nil => simp [sliceWritesFrom, sliceEvents]
  | cons hd tl ih =>
    obtain ⟨m, c⟩ := hd
    by_cases hm : m ∈ seen
    · have hstep : sliceWritesFrom seen ((m, c) :: tl) = sliceWritesFrom seen tl := by
        simp only [sliceWritesFrom, sliceEvents, if_pos hm, List.filterMap_cons, writtenPair]
      rw [hstep, ih seen]
      by_cases hn : n ∈ seen
      · simp [hn]
      · have hmn : (m == n) = false := by
          simp only [beq_eq_false_iff_ne, ne_eq]
          rintro rfl; exact hn hm
        simp [hn, List.filter_cons, hmn]
    · have hstep : sliceWritesFrom seen ((m, c) :: tl) =
          (m, c) :: sliceWritesFrom (m :: seen) tl := by
        simp only [sliceWritesFrom, sliceEvents, if_neg hm, List.filterMap_cons, writtenPair]
      rw [hstep]
      by_cases hmn : m = n
      · subst hmn
        have h1 : (m == m) = true := by simp
        simp only [List.filter_cons, h1, ih (m :: seen), if_pos (List.mem_cons_self m seen),
          if_neg hm, List.take]
        rfl
      · have h1 : (m == n) = false := by simp [hmn]
        simp only [List.filter_cons, h1, ih (m :: seen)]
        have hmem : (n ∈ m :: seen) ↔ (n ∈ seen) := by
          constructor
          · intro h
            rcases List.mem_cons.mp h with rfl | h
            · exact absurd rfl hmn
            · exact h
          · exact fun h => List.mem_cons_of_mem m h
        by_cases hn : n ∈ seen
        · simp [hn, hmem]
        · simp [hn, hmem]

theorem sliceEvents_get? {α : Type} (seen : List String) (cells : List (String × α)) (i : Nat) :
    (sliceEvents seen cells).get? i =
      (cells.get? i).map (fun cell =>
        if cell.1 ∈ seen ∨ cell.1 ∈ (cells.take i).map Prod.fst
        then SliceEvent.skipped cell.1 else SliceEvent.written cell.1 cell.2) := by
  induction cells generalizing seen i with
  | nil => simp [sliceEvents]
  | cons hd tl ih =>
    obtain ⟨n, c⟩ := hd
    by_cases h : n ∈ seen
    · rw [show sliceEvents seen ((n, c) :: tl) =
          SliceEvent.skipped n :: sliceEvents seen tl from by
        simp only [sliceEvents, if_pos h]]
      cases i with
      | zero =>
        show some (SliceEvent.skipped n) =
          some (if n ∈ seen ∨ n ∈ ([] : List String)
                then SliceEvent.skipped n else SliceEvent.written n c)
        rw [if_pos (Or.inl h)]
      | succ j =>
        simp only [List.get?_cons_succ, List.take_succ_cons, List.map_cons]
        rw [ih seen j]
        cases hj : tl.get? j with
        | none => rfl
        | some cell =>
          have hiff : (cell.1 ∈ seen ∨ cell.1 ∈ (tl.take j).map Prod.fst) ↔
              (cell.1 ∈ seen ∨ cell.1 ∈ n :: (tl.take j).map Prod.fst) := by
            constructor
            · rintro (hs | ht)
              · exact Or.inl hs
              · exact Or.inr (List.mem_cons_of_mem n ht)
            · rintro (hs | ht)
              · exact Or.inl hs
              · rcases List.mem_cons.mp ht with rfl | ht
                · exact Or.inl h
                · exact Or.inr ht
          exact congrArg some (if_congr hiff rfl rfl)
    · rw [show sliceEvents seen ((n, c) :: tl) =
          SliceEvent.written n c :: sliceEvents (n :: seen) tl from by
        simp only [sliceEvents, if_neg h]]
      cases i with
      | zero =>
        show some (SliceEvent.written n c) =
          some (if n ∈ seen ∨ n ∈ ([] : List String)
                then SliceEvent.skipped n else SliceEvent.written n c)
        have hcond : ¬ (n ∈ seen ∨ n ∈ ([] : List String)) := by
          rintro (hs | hx)
          · exact h hs
          · cases hx
        rw [if_neg hcond]
      | succ j =>
        simp only [List.get?_cons_succ, List.take_succ_cons, List.map_cons]
        rw [ih (n :: seen) j]
        cases hj : tl.get? j with
        | none => rfl
        | some cell =>
          have hiff : (cell.1 ∈ n :: seen ∨ cell.1 ∈ (tl.take j).map Prod.fst) ↔
              (cell.1 ∈ seen ∨ cell.1 ∈ n :: (tl.take j).map Prod.fst) := by
            constructor
            · rintro (hs | ht)
              · rcases List.mem_cons.mp hs with rfl | hs
                · exact Or.inr (List.mem_cons_self _ _)
                · exact Or.inl hs
              · exact Or.inr (List.mem_cons_of_mem n ht)
            · rintro (hs | ht)
              · exact Or.inl (List.mem_cons_of_mem n hs)
              · rcases List.mem_cons.mp ht with rfl | ht
                · exact Or.inl (List.mem_cons_self _ _)
                · exact Or.inr ht
          exact congrArg some (if_congr hiff rfl rfl)

/-- C3: in the write loop over any row-major cell list, the event at
position i is a write exactly when the cell's name does not occur among the
names of the cells before i (first occurrence wins) and a skip of that name
otherwise; the names actually written are pairwise distinct (each name is
written at most once); and for every name n the writes carrying n are
exactly the first cell of the run carrying n with its own content — so a
later duplicate never writes and never overwrites the first file's
content. -/
theorem slicer_first_occurrence_wins {α : Type} (cells : List (String × α)) (i : Nat)
    (cell : String × α) (n : String) (h : cells.get? i = some cell) :
    (sliceEvents [] cells).get? i =
      some (if cell.1 ∈ (cells.take i).map Prod.fst
            then SliceEvent.skipped cell.1 else SliceEvent.written cell.1 cell.2) ∧
    ((sliceWrites cells).map Prod.fst).Nodup ∧
    (sliceWrites cells).filter (fun nc => nc.1 == n) =
      (cells.filter (fun nc => nc.1 == n)).take 1 := by
  refine ⟨?_, ?_, ?_⟩
  · rw [sliceEvents_get?, h]
    have hiff : (cell.1 ∈ ([] : List String) ∨ cell.1 ∈ (cells.take i).map Prod.fst) ↔
        cell.1 ∈ (cells.take i).map Prod.fst := by
      constructor
      · rintro (hs | ht)
        · cases hs
        · exact ht
      · exact Or.inr
    exact congrArg some (if_congr hiff rfl rfl)
  · rw [sliceWrites, sliceWritesFrom_map_fst]
    exact (nameWrites_nodup [] (cells.map Prod.fst)).1
  · rw [sliceWrites, sliceWritesFrom_filter]
    rw [if_neg (List.not_mem_nil n)]

/-- C3 witness: the loop on cells [("a",0), ("b",1), ("a",2)]: position 2 is
reported as a skipped duplicate of "a", the written names are distinct, and
the only write named "a" is the first cell ("a", 0). -/
theorem slicer_first_occurrence_wins_witness :
    (sliceEvents [] [("a", 0), ("b", 1), ("a", 2)]).get? 2 =
      some (if (("a", 2) : String × Nat).1 ∈
              (([("a", 0), ("b", 1), ("a", 2)] : List (String × Nat)).take 2).map Prod.fst
            then SliceEvent.skipped ("a", 2).1
            else SliceEvent.written ("a", 2).1 ("a", 2).2) ∧
    ((sliceWrites [("a", 0), ("b", 1), ("a", 2)]).map Prod.fst).Nodup ∧
    (sliceWrites [("a", 0), ("b", 1), ("a", 2)]).filter (fun nc => nc.1 == "a") =
      (([("a", 0), ("b", 1), ("a", 2)] : List (String × Nat)).filter
        (fun nc => nc.1 == "a")).take 1 :=
  slicer_first_occurrence_wins [("a", 0), ("b", 1), ("a", 2)] 2 ("a", 2) "a" (by decide)

/-- C2: a complete run of the slicer over the 6×9 grid writes, for any
sprite sheet, a duplicate-free list of filenames that is a permutation of
the 52 strings "<rank>_<suit>.png" together with "joker.png" and
"back.png" — each filename at most (in fact exactly) once. -/
theorem slice_cards_output_filenames (sheet : Img) :
    ((slice_cards sheet).map (fun nc => nc.1 ++ ".png")).Nodup ∧
    ((slice_cards sheet).map (fun nc => nc.1 ++ ".png")).Perm
      (targetFilenames ++ ["joker.png", "back.png"]) := by
  have hcells : (slicerCells sheet).map Prod.fst = gridNames := by
    simp only [slicerCells, gridNames, List.map_flatMap, List.map_map]
    rfl
  have hnames : (slice_cards sheet).map Prod.fst = nameWrites [] gridNames := by
    rw [slice_cards, sliceWrites, sliceWritesFrom_map_fst, hcells]
  have hfiles : (slice_cards sheet).map (fun nc => nc.1 ++ ".png") =
      (nameWrites [] gridNames).map (fun s => s ++ ".png") := by
    rw [show (fun nc : String × Img => nc.1 ++ ".png") =
          ((fun s => s ++ ".png") ∘ Prod.fst) from rfl]
    rw [← List.map_map, hnames]
  rw [hfiles]
  exact ⟨by decide, by decide⟩

/-- C2 witness: the run evaluated on a concrete (fully transparent) sprite
sheet. -/
theorem slice_cards_output_filenames_witness :
    ((slice_cards imgBlank).map (fun nc => nc.1 ++ ".png")).Nodup ∧
    ((slice_cards imgBlank).map (fun nc => nc.1 ++ ".png")).Perm
      (targetFilenames ++ ["joker.png", "back.png"]) :=
  slice_cards_output_filenames imgBlank

/-- C4 counterexample: the claimed equivalence "output is (0,0,0,0) iff the
pixel satisfies the primary or the secondary rule" fails at the concrete input
pixel (0,0,0,0): neither rule holds of it (the green channel is not within 50
of 94 and does not exceed red + 10), yet passing it through unchanged yields
(0,0,0,0). -/
theorem remove_green_pixel_iff_fails_at_black_transparent :
    ¬ ((remove_green_pixel (0, 0, 0, 0) = (0, 0, 0, 0)) ↔
        (is_green 0 0 0 ∨ is_dark_green 0 0 0)) := by
  decide

/-- C4 (amended): for every input pixel (r,g,b,a), the background-removal
loop body outputs (0,0,0,0) if and only if the pixel satisfies the primary
tolerance rule or the secondary dark-green rule or is already (0,0,0,0); and
it returns the pixel unchanged if and only if the pixel matches neither rule
or is already (0,0,0,0). -/
theorem remove_green_pixel_characterization :
    ∀ r g b a : Nat,
      (remove_green_pixel (r, g, b, a) = (0, 0, 0, 0) ↔
        ((is_green r g b ∨ is_dark_green r g b) ∨ (r, g, b, a) = ((0, 0, 0, 0) : Pixel))) ∧
      (remove_green_pixel (r, g, b, a) = (r, g, b, a) ↔
        (¬ (is_green r g b ∨ is_dark_green r g b) ∨ (r, g, b, a) = ((0, 0, 0, 0) : Pixel))) := by
  intro r g b a
  have key : remove_green_pixel (r, g, b, a) =
      if is_green r g b ∨ is_dark_green r g b then (0, 0, 0, 0) else (r, g, b, a) := rfl
  rw [key]
  by_cases h : is_green r g b ∨ is_dark_green r g b
  · rw [if_pos h]
    refine ⟨⟨fun _ => Or.inl h, fun _ => rfl⟩, ⟨fun heq => Or.inr heq.symm, ?_⟩⟩
    rintro (hc | heq)
    · exact absurd h hc
    · simp only [Prod.mk.injEq] at heq
      obtain ⟨hr, hg, hb, ha⟩ := heq
      subst hr; subst hg; subst hb; subst ha
      exact absurd h (by decide)
  · rw [if_neg h]
    refine ⟨⟨fun heq => Or.inr heq, ?_⟩, ⟨fun _ => Or.inl h, fun _ => rfl⟩⟩
    rintro (hc | heq)
    · exact absurd hc h
    · exact heq

/-- C4 (amended) witness: the characterization applied at the dark-green
pixel (17, 94, 63, 255), which matches the primary rule and is mapped to
full transparency. -/
theorem remove_green_pixel_characterization_witness :
    remove_green_pixel (17, 94, 63, 255) = (0, 0, 0, 0) :=
  (remove_green_pixel_characterization 17 94 63 255).1.mpr (Or.inl (Or.inl (by decide)))

/-- C8: the per-pixel background-removal transform is idempotent — applying
it twice to any pixel equals applying it once — and in particular the
already-processed transparent pixel (0,0,0,0) is left unchanged by a second
application. -/
theorem remove_green_pixel_idempotent :
    (∀ p : Pixel, remove_green_pixel (remove_green_pixel p) = remove_green_pixel p) ∧
    remove_green_pixel (0, 0, 0, 0) = (0, 0, 0, 0) := by
  constructor
  · intro p
    obtain ⟨r, g, b, a⟩ := p
    by_cases h : is_green r g b ∨ is_dark_green r g b
    · simp only [remove_green_pixel, if_pos h]
      decide
    · simp only [remove_green_pixel, if_neg h]
  · decide

/-- C8 witness: idempotence evaluated at the concrete dark-green pixel
(17, 94, 63, 255). -/
theorem remove_green_pixel_idempotent_witness :
    remove_green_pixel (remove_green_pixel (17, 94, 63, 255)) =
      remove_green_pixel (17, 94, 63, 255) :=
  remove_green_pixel_idempotent.1 (17, 94, 63, 255)

/-- C5 counterexample: the claim that the grid table contains duplicate
entries is false — no two distinct grid positions (row,col) of `CARD_MAP`
map to the same name. -/
theorem card_map_has_no_duplicate_positions :
    ¬ ∃ (r₁ : Fin 6) (c₁ : Fin 9) (r₂ : Fin 6) (c₂ : Fin 9),
        (r₁, c₁) ≠ (r₂, c₂) ∧
        (CARD_MAP.getD r₁ []).getD c₁ "" = (CARD_MAP.getD r₂ []).getD c₂ "" := by
  decide

/-- C5 (amended): the static grid-position-to-card-name table contains no
duplicate entries: its 54 cells are pairwise distinct and consist of exactly
the 52 rank-suit names plus the two non-playing entries "joker" and "back"
(each ace and each of the four 7s appears in exactly one grid cell). -/
theorem card_map_entries_distinct :
    (CARD_MAP.flatMap id).Nodup ∧
    (CARD_MAP.flatMap id).Perm
      (CARD_NAMES.flatMap (fun r => SUITS.map (fun s => r ++ "_" ++ s)) ++
        ["joker", "back"]) := by
  exact ⟨by decide, by decide⟩

/-- C1: for ids 1..52, `card_id_to_filename` enumerates exactly the 52 strings
`"<rank>_<suit>.png"` (rank = entry `(id-1) mod 13` of `CARD_NAMES`, suit =
entry `(id-1) div 13` of `SUITS`, which is precisely how `targetFilenames`
lists them in id order), that list is duplicate-free — so the map is a
bijection from 1..52 onto those 52 strings — and the named sample ids map as
stated: 1 → A_spades, 13 → K_spades, 14 → A_hearts, 52 → K_clubs,
7 → 7_spades, 33 → 7_diamonds. -/
theorem card_id_to_filename_bijection_spec :
    (List.range 52).map (fun k => card_id_to_filename ((k : Int) + 1)) =
      targetFilenames.map some ∧
    targetFilenames.Nodup ∧
    card_id_to_filename 1 = some "A_spades.png" ∧
    card_id_to_filename 13 = some "K_spades.png" ∧
    card_id_to_filename 14 = some "A_hearts.png" ∧
    card_id_to_filename 52 = some "K_clubs.png" ∧
    card_id_to_filename 7 = some "7_spades.png" ∧
    card_id_to_filename 33 = some "7_diamonds.png" := by
  refine ⟨by decide, by decide, ?_, ?_, ?_, ?_, ?_, ?_⟩ <;> decide

/-- C10: `card_id_to_filename` does not validate its 1–52 precondition: at the
out-of-range input 0, Python's floor division and modulo give
`(0-1) mod 13 = 12` and `(0-1) div 13 = -1`, and the negative index selects
the last suit, so id 0 returns `"K_clubs.png"` — the same filename as id 52 —
and the mapping is not injective once 0 is admitted. -/
theorem card_id_to_filename_zero_collides_with_52 :
    card_id_to_filename 0 = some "K_clubs.png" ∧
    card_id_to_filename 52 = some "K_clubs.png" ∧
    (0 : Int) ≠ 52 := by
  exact ⟨by decide, by decide, by decide⟩

/-- C6: against a directory containing all 52 expected files except
`"2_clubs.png"`, the verifier's exhaustive check collects exactly one missing
entry — id 41, the unique id in 1..52 whose filename is `"2_clubs.png"` —
flags no other id, and finishes with the printed missing-count summary
instead of terminating. -/
theorem verifier_reports_exactly_two_clubs_missing :
    verifyMissing dirMissingTwoClubs = [(41, "2_clubs.png")] ∧
    ((List.range 52).filter
        (fun k => card_id_to_filename ((k : Int) + 1) == some "2_clubs.png")).map
        (fun k => (k : Int) + 1) = [41] ∧
    verifySummary dirMissingTwoClubs = "❌ Missing 1 cards:" := by
  exact ⟨by decide, by decide, by decide⟩

/-- C9: the analyzer classifies a sampled pixel (r,g,b) as "GREEN" exactly
when g > r+10 and g > b+5, as "WHITE" exactly when that fails and all three
channels exceed 200, and as "OTHER" otherwise; a pixel satisfying both the
GREEN condition and all-channels-above-200 (e.g. (201,250,201)) is reported
GREEN, not WHITE. -/
theorem analyzer_classification (r g b : Nat) :
    (color_type r g b = "GREEN" ↔ (g > r + 10 ∧ g > b + 5)) ∧
    (color_type r g b = "WHITE" ↔
      (¬ (g > r + 10 ∧ g > b + 5) ∧ (r > 200 ∧ g > 200 ∧ b > 200))) ∧
    (color_type r g b = "OTHER" ↔
      (¬ (g > r + 10 ∧ g > b + 5) ∧ ¬ (r > 200 ∧ g > 200 ∧ b > 200))) ∧
    color_type 201 250 201 = "GREEN" := by
  by_cases h1 : g > r + 10 ∧ g > b + 5
  · refine ⟨?_, ?_, ?_, by decide⟩ <;> simp [color_type, h1]
  · by_cases h2 : r > 200 ∧ g > 200 ∧ b > 200
    · refine ⟨?_, ?_, ?_, by decide⟩ <;> simp [color_type, h1, h2]
    · refine ⟨?_, ?_, ?_, by decide⟩ <;> simp [color_type, h1, h2]

theorem minOf_le_self (a : Nat) (l : List Nat) : minOf a l ≤ a := by
  induction l generalizing a with
  | nil => exact Nat.le_refl a
  | cons b t ih => exact Nat.le_trans (ih (min a b)) (Nat.min_le_left a b)

theorem minOf_le_mem (a : Nat) (l : List Nat) : ∀ b ∈ l, minOf a l ≤ b := by
  induction l generalizing a with
  | nil => intro b hb; cases hb
  | cons c t ih =>
    intro b hb
    rcases List.mem_cons.mp hb with rfl | hb
    · exact Nat.le_trans (minOf_le_self (min a b) t) (Nat.min_le_right a b)
    · exact ih (min a c) b hb

theorem minOf_eq_self_or_mem (a : Nat) (l : List Nat) : minOf a l = a ∨ minOf a l ∈ l := by
  induction l generalizing a with
  | nil => exact Or.inl rfl
  | cons c t ih =>
    rcases ih (min a c) with h | h
    · rcases min_choice a c with hm | hm
      · exact Or.inl (h.trans hm)
      · exact Or.inr (by show minOf (min a c) t ∈ c :: t; rw [h, hm]; exact List.mem_cons_self c t)
    · exact Or.inr (List.mem_cons_of_mem c h)

theorem le_maxOf_self (a : Nat) (l : List Nat) : a ≤ maxOf a l := by
  induction l generalizing a with
  | nil => exact Nat.le_refl a
  | cons b t ih => exact Nat.le_trans (Nat.le_max_left a b) (ih (max a b))

theorem le_maxOf_mem (a : Nat) (l : List Nat) : ∀ b ∈ l, b ≤ maxOf a l := by
  induction l generalizing a with
  | nil => intro b hb; cases hb
  | cons c t ih =>
    intro b hb
    rcases List.mem_cons.mp hb with rfl | hb
    · exact Nat.le_trans (Nat.le_max_right a b) (le_maxOf_self (max a b) t)
    · exact ih (max a c) b hb

theorem maxOf_eq_self_or_mem (a : Nat) (l : List Nat) : maxOf a l = a ∨ maxOf a l ∈ l := by
  induction l generalizing a with
  | nil => exact Or.inl rfl
  | cons c t ih =>
    rcases ih (max a c) with h | h
    · rcases max_choice a c with hm | hm
      · exact Or.inl (h.trans hm)
      · exact Or.inr (by show maxOf (max a c) t ∈ c :: t; rw [h, hm]; exact List.mem_cons_self c t)
    · exact Or.inr (List.mem_cons_of_mem c h)

theorem mem_nonTransparentCoords (img : Img) (x y : Nat) :
    (x, y) ∈ nonTransparentCoords img ↔
      x < img.width ∧ y < img.height ∧ alphaOf (img.px x y) ≠ 0 := by
  constructor
  · intro hmem
    simp only [nonTransparentCoords, List.mem_flatMap] at hmem
    obtain ⟨y', hy', hx⟩ := hmem
    simp only [List.mem_filterMap] at hx
    obtain ⟨x', hx', heq⟩ := hx
    by_cases h : alphaOf (img.px x' y') ≠ 0
    · rw [if_pos h] at heq
      have hpair : (x', y') = (x, y) := Option.some.inj heq
      have hx2 : x' = x := congrArg Prod.fst hpair
      have hy2 : y' = y := congrArg Prod.snd hpair
      subst hx2; subst hy2
      exact ⟨List.mem_range.mp hx', List.mem_range.mp hy', h⟩
    · rw [if_neg h] at heq
      cases heq
  · rintro ⟨hx, hy, hα⟩
    simp only [nonTransparentCoords, List.mem_flatMap]
    refine ⟨y, List.mem_range.mpr hy, ?_⟩
    simp only [List.mem_filterMap]
    exact ⟨x, List.mem_range.mpr hx, by rw [if_pos hα]⟩

/-- C9 witness: the classification applied at the concrete sample
(15, 30, 10), which satisfies the GREEN rule. -/
theorem analyzer_classification_witness :
    color_type 15 30 10 = "GREEN" :=
  (analyzer_classification 15 30 10).1.mpr (by decide)

/-- C7: for an image whose pixels are all fully transparent, `getbbox` finds
no content and the transparent-border trimming returns the image unchanged;
for an image with at least one non-transparent pixel, `getbbox` is not
`None`, and whenever it returns a box, that box is exactly the bounding box
of the non-transparent content (it contains every non-transparent pixel and
each edge touches one) and the trimming step returns the crop to it. -/
theorem crop_transparent_borders_spec (img : Img) :
    ((∀ x y, x < img.width → y < img.height → alphaOf (img.px x y) = 0) →
      crop_transparent_borders img = img) ∧
    (∀ x0 y0, x0 < img.width → y0 < img.height → alphaOf (img.px x0 y0) ≠ 0 →
      getbbox img ≠ none) ∧
    (∀ left upper right lower, getbbox img = some (left, upper, right, lower) →
      specContentBBox img left upper right lower ∧
      crop_transparent_borders img = crop img left upper right lower) := by
  refine ⟨?_, ?_, ?_⟩
  · intro hall
    have hnil : nonTransparentCoords img = [] := by
      rw [List.eq_nil_iff_forall_not_mem]
      intro a hmem
      obtain ⟨x, y⟩ := a
      obtain ⟨hx, hy, hα⟩ := (mem_nonTransparentCoords img x y).mp hmem
      exact hα (hall x y hx hy)
    have hbb : getbbox img = none := by unfold getbbox; rw [hnil]
    unfold crop_transparent_borders
    rw [hbb]
  · intro x0 y0 hx hy hα hnone
    have hmem : (x0, y0) ∈ nonTransparentCoords img :=
      (mem_nonTransparentCoords img x0 y0).mpr ⟨hx, hy, hα⟩
    cases hc : nonTransparentCoords img with
    | nil => rw [hc] at hmem; cases hmem
    | cons c cs =>
      unfold getbbox at hnone
      rw [hc] at hnone
      exact Option.noConfusion hnone
  · intro left upper right lower hbb
    have hbb0 : getbbox img = some (left, upper, right, lower) := hbb
    cases hc : nonTransparentCoords img with
    | nil =>
      unfold getbbox at hbb
      rw [hc] at hbb
      exact Option.noConfusion hbb
    | cons c cs =>
      unfold getbbox at hbb
      rw [hc] at hbb
      simp only [Option.some.injEq, Prod.mk.injEq] at hbb
      obtain ⟨h1, h2, h3, h4⟩ := hbb
      subst h1; subst h2; subst h3; subst h4
      have hcmem : (c.1, c.2) ∈ nonTransparentCoords img := by
        rw [hc]; exact List.mem_cons_self c cs
      obtain ⟨hcw, hch, hcα⟩ := (mem_nonTransparentCoords img c.1 c.2).mp hcmem
      constructor
      · refine ⟨?_, ?_, ?_, ?_, ?_⟩
        · intro x y hxw hyh hxyα
          have hm : (x, y) ∈ nonTransparentCoords img :=
            (mem_nonTransparentCoords img x y).mpr ⟨hxw, hyh, hxyα⟩
          rw [hc] at hm
          rcases List.mem_cons.mp hm with hceq | hm
          · have hx1 : x = c.1 := congrArg Prod.fst hceq
            have hy1 : y = c.2 := congrArg Prod.snd hceq
            subst hx1; subst hy1
            refine ⟨minOf_le_self c.1 (cs.map Prod.fst), ?_,
                    minOf_le_self c.2 (cs.map Prod.snd), ?_⟩
            · exact Nat.lt_succ_of_le (le_maxOf_self c.1 (cs.map Prod.fst))
            · exact Nat.lt_succ_of_le (le_maxOf_self c.2 (cs.map Prod.snd))
          · have hxm : x ∈ cs.map Prod.fst := List.mem_map_of_mem Prod.fst hm
            have hym : y ∈ cs.map Prod.snd := List.mem_map_of_mem Prod.snd hm
            refine ⟨minOf_le_mem c.1 (cs.map Prod.fst) x hxm, ?_,
                    minOf_le_mem c.2 (cs.map Prod.snd) y hym, ?_⟩
            · exact Nat.lt_succ_of_le (le_maxOf_mem c.1 (cs.map Prod.fst) x hxm)
            · exact Nat.lt_succ_of_le (le_maxOf_mem c.2 (cs.map Prod.snd) y hym)
        · rcases minOf_eq_self_or_mem c.1 (cs.map Prod.fst) with h | h
          · exact ⟨c.1, c.2, hcw, hch, hcα, h.symm⟩
          · obtain ⟨p, hp, hpf⟩ := List.mem_map.mp h
            have hpmem : (p.1, p.2) ∈ nonTransparentCoords img := by
              rw [hc]; exact List.mem_cons_of_mem c hp
            obtain ⟨hpw, hph, hpα⟩ := (mem_nonTransparentCoords img p.1 p.2).mp hpmem
            exact ⟨p.1, p.2, hpw, hph, hpα, hpf.symm ▸ rfl⟩
        · rcases maxOf_eq_self_or_mem c.1 (cs.map Prod.fst) with h | h
          · exact ⟨c.1, c.2, hcw, hch, hcα, by rw [h]⟩
          · obtain ⟨p, hp, hpf⟩ := List.mem_map.mp h
            have hpmem : (p.1, p.2) ∈ nonTransparentCoords img := by
              rw [hc]; exact List.mem_cons_of_mem c hp
            obtain ⟨hpw, hph, hpα⟩ := (mem_nonTransparentCoords img p.1 p.2).mp hpmem
            exact ⟨p.1, p.2, hpw, hph, hpα, by rw [hpf]⟩
        · rcases minOf_eq_self_or_mem c.2 (cs.map Prod.snd) with h | h
          · exact ⟨c.1, c.2, hcw, hch, hcα, h.symm⟩
          · obtain ⟨p, hp, hpf⟩ := List.mem_map.mp h
            have hpmem : (p.1, p.2) ∈ nonTransparentCoords img := by
              rw [hc]; exact List.mem_cons_of_mem c hp
            obtain ⟨hpw, hph, hpα⟩ := (mem_nonTransparentCoords img p.1 p.2).mp hpmem
            exact ⟨p.1, p.2, hpw, hph, hpα, hpf.symm ▸ rfl⟩
        · rcases maxOf_eq_self_or_mem c.2 (cs.map Prod.snd) with h | h
          · exact ⟨c.1, c.2, hcw, hch, hcα, by rw [h]⟩
          · obtain ⟨p, hp, hpf⟩ := List.mem_map.mp h
            have hpmem : (p.1, p.2) ∈ nonTransparentCoords img := by
              rw [hc]; exact List.mem_cons_of_mem c hp
            obtain ⟨hpw, hph, hpα⟩ := (mem_nonTransparentCoords img p.1 p.2).mp hpmem
            exact ⟨p.1, p.2, hpw, hph, hpα, by rw [hpf]⟩
      · unfold crop_transparent_borders
        rw [hbb0]

/-- C7 witness: on a concrete all-transparent 2×2 image the trim is the
identity; on a concrete 3×2 image whose only content pixel is (1,0) the trim
crops to the content bounding box (1, 0, 2, 1). -/
theorem crop_transparent_borders_spec_witness :
    crop_transparent_borders imgBlank = imgBlank ∧
    specContentBBox imgDot 1 0 2 1 ∧
    crop_transparent_borders imgDot = crop imgDot 1 0 2 1 :=
  ⟨(crop_transparent_borders_spec imgBlank).1 (fun _ _ _ _ => rfl),
   ((crop_transparent_borders_spec imgDot).2.2 1 0 2 1 (by decide)).1,
   ((crop_transparent_borders_spec imgDot).2.2 1 0 2 1 (by decide)).2⟩

end Blackjack
